import Mathlib

/-!
Verification of the PhysiGen dynamic-component compilation pipeline.

This file gives a shallow embedding, over `List Char`, of the string
sanitization performed by `compileComponent` (src/unnamed/part_001), the
Babel-availability and error-propagation structure of the compiler, the
frame-gate pause wrapper and the error boundary of `DynamicScene`
(src/unnamed/part_004), the `App` state handlers (src/unnamed/part_000),
and `generateSimulation` / `validateSimulationCode` (src/unnamed/part_000).

JavaScript regular-expression operations are embedded as concrete scanning
functions specialised to the exact patterns appearing in the source; the
correspondence is documented at each definition.
-/

namespace PhysiGen

/-- Convert a Lean string literal to the character-list representation used
throughout this development. -/
def toL (s : String) : List Char := s.data

/-- JavaScript `\s` whitespace class restricted to the ASCII whitespace
characters that can occur in the handled sources. -/
def isWs (c : Char) : Bool :=
  c = ' ' || c = '\t' || c = '\n' || c = '\r' || c = '\x0b' || c = '\x0c'

/-- JavaScript `[a-zA-Z0-9_]` word-character class. -/
def isWordChar (c : Char) : Bool :=
  (('a' ≤ c && c ≤ 'z') || ('A' ≤ c && c ≤ 'Z') || ('0' ≤ c && c ≤ '9') || c = '_')

/-- JavaScript `String.prototype.trim`: drop whitespace from both ends. -/
def jsTrim (s : List Char) : List Char :=
  ((s.dropWhile isWs).reverse.dropWhile isWs).reverse

/-- JavaScript `a || b` on strings: `b` when `a` is the empty string
(falsy), otherwise `a`. -/
def jsOr (a b : List Char) : List Char := if a = [] then b else a

/-- Match a literal character sequence at the start of the input, returning
the remainder on success. -/
def dropLit : List Char → List Char → Option (List Char)
  | [], s => some s
  | _ :: _, [] => none
  | c :: p, d :: s => if c = d then dropLit p s else none

/-- Regex fragment `\s+` (greedy, as in the source patterns where the next
token starts with a non-whitespace character): require at least one
whitespace character, then consume the maximal whitespace run. -/
def wsPlus : List Char → Option (List Char)
  | [] => none
  | c :: cs => if isWs c then some (cs.dropWhile isWs) else none

/-- Regex fragment `([a-zA-Z0-9_]+)` (greedy): the maximal nonempty word-run
together with the remainder. -/
def wordTake (s : List Char) : Option (List Char × List Char) :=
  match s.takeWhile isWordChar with
  | [] => none
  | w => some (w, s.dropWhile isWordChar)

/-- `regex.test(s)`: does the position matcher `m` succeed at some suffix of
`s` (leftmost-scan existence)? -/
def patTest (m : List Char → Option (List Char)) : List Char → Bool
  | [] => (m []).isSome
  | c :: cs => (m (c :: cs)).isSome || patTest m cs

/-- Split `s` around the leftmost match of position matcher `m`: on success
the pair of the text before the match and the text after it. -/
def splitFirst (m : List Char → Option (List Char)) : List Char → Option (List Char × List Char)
  | [] => (m []).map (fun r => ([], r))
  | c :: cs =>
    match m (c :: cs) with
    | some rest => some ([], rest)
    | none => (splitFirst m cs).map (fun pr => (c :: pr.1, pr.2))

/-- `s.replace(pattern, repl)` without the `g` flag: replace the leftmost
match of `m` by `repl`; identity when there is no match. -/
def replaceFirst (m : List Char → Option (List Char)) (repl : List Char) : List Char → List Char
  | [] => match m [] with | some r => repl ++ r | none => []
  | c :: cs =>
    match m (c :: cs) with
    | some rest => repl ++ rest
    | none => c :: replaceFirst m repl cs

/-- `s.match(pattern)` capture extraction: the capture of the leftmost
match of a capturing position matcher. -/
def findCapture (m : List Char → Option (List Char)) : List Char → Option (List Char)
  | [] => m []
  | c :: cs =>
    match m (c :: cs) with
    | some w => some w
    | none => findCapture m cs

/-- `String.prototype.includes`: substring containment. -/
def containsSub (needle s : List Char) : Bool :=
  patTest (fun t => dropLit needle t) s

/-! ## The export-default patterns of `compileComponent` (src/unnamed/part_001) -/

/-- Position matcher for `export\s+default\s+` (the shape test of the
sanitizer and the anonymous-expression replace pattern). -/
def pED (s : List Char) : Option (List Char) :=
  (dropLit (toL "export") s).bind fun r1 =>
  (wsPlus r1).bind fun r2 =>
  (dropLit (toL "default") r2).bind fun r3 =>
  wsPlus r3

/-- Position matcher for `export\s+default\s+function` (the named-function
replace pattern). -/
def pEDFlit (s : List Char) : Option (List Char) :=
  (pED s).bind fun r => dropLit (toL "function") r

/-- Capturing matcher for `export\s+default\s+function\s+([a-zA-Z0-9_]+)`
(`funcMatch`); returns the captured name. -/
def pEDFcap (s : List Char) : Option (List Char) :=
  (pEDFlit s).bind fun r1 =>
  (wsPlus r1).bind fun r2 =>
  (wordTake r2).map Prod.fst

/-- Capturing matcher for `export\s+default\s+([a-zA-Z0-9_]+)`
(`varMatch`); returns the captured identifier. -/
def pEDvarCap (s : List Char) : Option (List Char) :=
  (pED s).bind fun r => (wordTake r).map Prod.fst

/-- Position matcher for `export\s+default\s+[a-zA-Z0-9_]+;?` (the
bare-identifier replace pattern, with its optional trailing semicolon). -/
def pEDvarRepl (s : List Char) : Option (List Char) :=
  (pED s).bind fun r =>
  (wordTake r).bind fun wr =>
  some (match wr.2 with
        | ';' :: t => t
        | rest => rest)

/-! ## The import-removal passes of `compileComponent` -/

/-- Common front of both import patterns at a line-start position:
`\s*import` followed by at least one whitespace character (`\s`), returning
the text after the literal `import` (which starts with that whitespace).
Mirrors the prefixes of `/^\s*import\s+[\s\S]*?;\s*$/` and
`/^\s*import\s+.*$/`. -/
def importFront (s : List Char) : Option (List Char) :=
  match dropLit (toL "import") (s.dropWhile isWs) with
  | none => none
  | some u =>
    match u with
    | [] => none
    | c :: _ => if isWs c then some u else none

/-- Regex fragment `\s*$` (greedy, multiline `$`): the length of the longest
whitespace prefix whose end lies at a line end (end of input or immediately
before a newline); `none` when no whitespace prefix ends at a line end. -/
def lineEndCutK : List Char → Option Nat
  | [] => some 0
  | c :: cs =>
    if isWs c then
      match lineEndCutK cs with
      | some k => some (k + 1)
      | none => if c = '\n' then some 0 else none
    else none

/-- Lazy search for `;\s*$` inside `[\s\S]*?;\s*$`: find the first semicolon
followed by whitespace reaching a line end; return whether the final
consumed character is a newline, together with the remainder. -/
def findSemi : List Char → Option (Bool × List Char)
  | [] => none
  | c :: cs =>
    if c = ';' then
      match lineEndCutK cs with
      | some k => some (decide (k ≠ 0 ∧ (cs.take k).getLast? = some '\n'), cs.drop k)
      | none => findSemi cs
    else findSemi cs

/-- Match of `/^\s*import\s+[\s\S]*?;\s*$/m` at a line-start position:
returns `(endsWithNewline, remainder)` of the leftmost such match anchored
here. -/
def matchImport1 (s : List Char) : Option (Bool × List Char) :=
  (importFront s).bind findSemi

/-- Match of `/^\s*import\s+.*$/m` at a line-start position: `\s+` consumes
the maximal whitespace run after `import`, then `.*$` consumes the rest of
the current line. -/
def matchImport2 (s : List Char) : Option (Bool × List Char) :=
  (importFront s).bind fun u =>
    some (false, (u.dropWhile isWs).dropWhile (fun c => c ≠ '\n'))

/-- Global multiline replace-by-empty scanner: walk the text; at each
line-start position attempt the match `m`; on success drop the matched span
and continue after it (`g` flag), otherwise copy one character. `fuel`
bounds the recursion and is instantiated with more than the input length,
which suffices because every step either copies a character or drops a
nonempty span. -/
def scanGo (m : List Char → Option (Bool × List Char)) : Nat → Bool → List Char → List Char
  | 0, _, s => s
  | _ + 1, _, [] => []
  | fuel + 1, atStart, c :: cs =>
    if atStart then
      match m (c :: cs) with
      | some (nl, rest) => scanGo m fuel nl rest
      | none => c :: scanGo m fuel (c = '\n') cs
    else
      c :: scanGo m fuel (c = '\n') cs

/-- First import-removal pass:
`cleanBody.replace(/^\s*import\s+[\s\S]*?;\s*$/gm, '')`. -/
def pass1 (s : List Char) : List Char :=
  scanGo matchImport1 (s.length + 1) true s

/-- Second import-removal pass:
`cleanBody.replace(/^\s*import\s+.*$/gm, '')`. -/
def pass2 (s : List Char) : List Char :=
  scanGo matchImport2 (s.length + 1) true s

/-- Step 1 of `compileComponent`: both import-removal passes in order. -/
def stripImports (s : List Char) : List Char :=
  pass2 (pass1 s)

/-! ## The sanitization step of `compileComponent` (src/unnamed/part_001 lines 19-55) -/

/-- Result of the sanitization step: the rewritten source and the trailing
return statement naming the call target. -/
structure Sanitized where
  sourceCode : List Char
  returnStatement : List Char
  deriving DecidableEq, Repr

/-- Strategy B wrapper template of `compileComponent` (the exact template
literal of src/unnamed/part_001 lines 49-53). -/
def wrapBody (cleanBody : List Char) : List Char :=
  toL "\n        const DynamicComponent = (props) => \x7b\n          " ++ cleanBody ++
  toL "\n        \x7d;\n      "

/-- The sanitization step of `compileComponent` (src/unnamed/part_001
lines 19-55): trim, strip imports, then classify the shape by the
`export default` patterns and rewrite accordingly. -/
def sanitizeSource (codeBody : List Char) : Sanitized :=
  let cleanBody := stripImports (jsTrim codeBody)
  if patTest pED cleanBody then
    match findCapture pEDFcap cleanBody with
    | some name =>
        { sourceCode := replaceFirst pEDFlit (toL "function") cleanBody
          returnStatement := toL "return " ++ name ++ toL ";" }
    | none =>
      match findCapture pEDvarCap cleanBody with
      | some name =>
          { sourceCode := replaceFirst pEDvarRepl [] cleanBody
            returnStatement := toL "return " ++ name ++ toL ";" }
      | none =>
          { sourceCode := replaceFirst pED (toL "const DynamicComponent = ") cleanBody
            returnStatement := toL "return DynamicComponent;" }
  else
    { sourceCode := wrapBody cleanBody
      returnStatement := toL "return DynamicComponent;" }

/-! ## The full `compileComponent` pipeline (src/unnamed/part_001 lines 14-131) -/

/-- Values thrown out of `compileComponent`. The missing-transpiler case is
a fresh `Error` constructed by the compiler itself; the transpiler case
re-throws the transpiler's own error object (`throw babelErr`), so it is
kept opaque in the type parameter `ε`. -/
inductive CompileThrown (ε : Type) where
  | babelNotLoaded (msg : List Char)
  | babelError (e : ε)
  deriving DecidableEq, Repr

/-- `console.error` events emitted by `compileComponent`. -/
inductive CompileLog (ε : Type) where
  | babelTransformFailedOn (sourceCode : List Char)
  | compilationError (e : CompileThrown ε)
  deriving DecidableEq, Repr

/-- The message of the fresh `Error` thrown when Babel is absent. -/
def babelNotLoadedMessage : List Char :=
  toL "Babel not loaded. Please ensure Babel is included in index.html"

/-- The hook/capability preamble of the `new Function` body built by
`compileComponent` (src/unnamed/part_001 lines 88-100). -/
def createComponentPreamble : List Char :=
  toL "\n      // Inject React Hooks into Top-Level Scope\n      const \x7b useState, useEffect, useRef, useMemo, useCallback, useLayoutEffect, useReducer \x7d = React;\n      \n      // Inject Leva Hooks into Top-Level Scope\n      const \x7b useControls, button, folder, monitor \x7d = leva;\n\n      // Inject Common Drei Components into Top-Level Scope\n      const \x7b \n        Html, Text, Text3D, Float, Center, \n        OrbitControls, Environment, ContactShadows, \n        PerspectiveCamera, OrthographicCamera, Grid \n      \x7d = drei;\n      \n      "

/-- The body of the `new Function` synthesized by `compileComponent`
(src/unnamed/part_001 lines 76-106): capability preamble, then the
transpiled source, then the call-target return statement. -/
def createComponentBody (transformed returnStatement : List Char) : List Char :=
  createComponentPreamble ++ transformed ++ toL "\n      \n      " ++ returnStatement ++ toL "\n      "

/-- Outcome of one `compileComponent` call: the returned value or the
re-thrown error, the `console.error` log, and how many times the external
transpiler was invoked. -/
structure CompileOutcome (ε : Type) where
  result : Except (CompileThrown ε) (List Char)
  logs : List (CompileLog ε)
  transformCalls : Nat
  deriving Repr

/-- `compileComponent` (src/unnamed/part_001): sanitize, check that the
external transpiler is loaded (`window.Babel`), transpile, and synthesize
the component constructor. `babel` is `none` when Babel is not loaded;
otherwise it carries the `Babel.transform` function, which either returns
lowered code or throws an `ε`. Every failure is logged and re-thrown,
never swallowed (lines 70-73 and 127-130). -/
def compileComponent (babel : Option (List Char → Except ε (List Char)))
    (codeBody : List Char) : CompileOutcome ε :=
  let st := sanitizeSource codeBody
  match babel with
  | none =>
      { result := .error (.babelNotLoaded babelNotLoadedMessage)
        logs := [.compilationError (.babelNotLoaded babelNotLoadedMessage)]
        transformCalls := 0 }
  | some transform =>
    match transform st.sourceCode with
    | .error e =>
        { result := .error (.babelError e)
          logs := [.babelTransformFailedOn st.sourceCode, .compilationError (.babelError e)]
          transformCalls := 1 }
    | .ok transformed =>
        { result := .ok (createComponentBody transformed st.returnStatement)
          logs := []
          transformCalls := 1 }

/-! ## The Frame Gate (src/unnamed/part_004, `customUseFrame`, lines 236-243) -/

/-- The wrapped per-frame callback registered by `customUseFrame`: read the
shared pause flag; when paused return immediately without invoking the
user's callback, otherwise invoke it once with the frame state and delta
forwarded unchanged. `none` records that the user callback was not
invoked. -/
def wrappedFrameCallback (paused : Bool) (callback : α → β → γ) (state : α) (delta : β) :
    Option γ :=
  if paused then none else some (callback state delta)

/-- One frame tick observed by the gate: the pause flag as read from
`simSettings.current` at tick time, and the frame state and delta supplied
by the scheduler. -/
structure FrameTick where
  paused : Bool
  state : Nat
  delta : Nat
  deriving DecidableEq, Repr

/-- One scheduler tick over all callbacks registered through the gate, in
registration order. -/
def runTick (cbs : List (Nat → Nat → γ)) (t : FrameTick) : List (Option γ) :=
  cbs.map (fun cb => wrappedFrameCallback t.paused cb t.state t.delta)

/-- A sequence of scheduler ticks. -/
def runTicks (cbs : List (Nat → Nat → γ)) (ticks : List FrameTick) : List (List (Option γ)) :=
  ticks.map (runTick cbs)

/-- Number of user-callback invocations in a tick trace. -/
def invocationCount (trace : List (List (Option γ))) : Nat :=
  (trace.map (fun t => (t.filter Option.isSome).length)).sum

/-! ## The Failure Boundary and `DynamicScene` (src/unnamed/part_004) -/

/-- What the dynamic subtree renders after a mount attempt. -/
inductive RenderedScene where
  | nothing
  | component
  | fallbackUI (msg : List Char)
  deriving DecidableEq, Repr

/-- Observable outcome of mounting `DynamicScene` with a given code string:
the arguments of every `onError` invocation, and what is rendered. -/
structure MountOutcome where
  onErrorCalls : List (List Char)
  scene : RenderedScene
  deriving DecidableEq, Repr

/-- Mounting logic of `DynamicScene` (src/unnamed/part_004 lines 246-273
and the `ErrorBoundary` at lines 162-182): if `compileComponent` throws,
call `onError(err.message || "Failed to compile code")` and render nothing;
otherwise render the component inside the `ErrorBoundary`, which catches a
render-time exception, stores `error.message` via
`getDerivedStateFromError`, and renders the `ErrorFallback` diagnostic. -/
def dynamicSceneMount (compileResult : Except (List Char) Unit)
    (renderResult : Except (List Char) Unit) : MountOutcome :=
  match compileResult with
  | .error e =>
      { onErrorCalls := [jsOr e (toL "Failed to compile code")]
        scene := .nothing }
  | .ok _ =>
    match renderResult with
    | .error m => { onErrorCalls := [], scene := .fallbackUI m }
    | .ok _ => { onErrorCalls := [], scene := .component }

/-! ## `App` session state and handlers (src/unnamed/part_000 lines 89-288) -/

/-- `SimulationStatus` (src/src/types.ts). -/
inductive SimulationStatus where
  | IDLE
  | GENERATING
  | MODIFYING
  | EXPLAINING
  | COMPILING
  | READY
  | ERROR
  deriving DecidableEq, Repr

/-- `SimulationResponse` (src/src/types.ts): `sources` is optional. -/
structure SimResponse where
  title : List Char
  componentCode : List Char
  explanation : List Char
  sources : Option (List (List Char × List Char))
  deriving DecidableEq, Repr

/-- The `data` state of `App` holding the current simulation. -/
structure SimData where
  code : List Char
  explanation : List Char
  title : List Char
  sources : List (List Char × List Char)
  deriving DecidableEq, Repr

/-- Session state of `App`: status, current simulation data, the
mount-generation counter `refreshKey`, the error banner, and the current
prompt. -/
structure AppState where
  status : SimulationStatus
  data : SimData
  refreshKey : Nat
  error : Option (List Char)
  currentPrompt : List Char
  deriving DecidableEq, Repr

/-- First, synchronous phase of `performGeneration` (src/unnamed/part_000
line 144): enter the GENERATING status while the asynchronous
`generateSimulation` call is in flight. -/
def performGenerationStart (st : AppState) : AppState :=
  { st with status := .GENERATING }

/-- Settling phase of `performGeneration` (src/unnamed/part_000 lines
146-159): on success install the result, bump `refreshKey` to force a
fresh mount, and become READY; on failure set the error banner and become
ERROR, leaving the data and the counter untouched. -/
def performGenerationSettle (outcome : Except (List Char) SimResponse)
    (st : AppState) : AppState :=
  match outcome with
  | .ok r =>
      { st with
        data := { code := r.componentCode, explanation := r.explanation,
                  title := r.title, sources := r.sources.getD [] }
        refreshKey := st.refreshKey + 1
        status := .READY }
  | .error m =>
      { st with
        error := some (jsOr m (toL "Failed to generate simulation."))
        status := .ERROR }

/-- `handlePresetClick` (src/unnamed/part_000 lines 208-234): enter
GENERATING and clear the error banner, look the key up in the custom
table first and the built-in table second; when absent, move to ERROR and
return; otherwise set the prompt, install the simulation, bump
`refreshKey`, and become READY (the artificial loading delay does not
affect the resulting state). -/
def handlePresetClick (customSims perfectSims : List Char → Option SimResponse)
    (key : List Char) (st : AppState) : AppState :=
  let st1 : AppState := { st with status := .GENERATING, error := none }
  match (customSims key).orElse (fun _ => perfectSims key) with
  | none => { st1 with status := .ERROR }
  | some sim =>
      { st1 with
        currentPrompt := sim.title
        data := { code := sim.componentCode, explanation := sim.explanation,
                  title := sim.title, sources := sim.sources.getD [] }
        refreshKey := st1.refreshKey + 1
        status := .READY }

/-- Whether the preset buttons and the input bar accept a new request:
both carry `disabled`/`isLoading` conditions
`status !== SimulationStatus.READY && status !== SimulationStatus.IDLE`
(src/unnamed/part_000 lines 349, 361, 461). -/
def controlsEnabled (st : SimulationStatus) : Bool :=
  st = .READY || st = .IDLE

/-- `handleRuntimeError` (src/unnamed/part_000 lines 277-279): set the
error banner to the message prefixed with `Runtime Error: `. -/
def handleRuntimeError (msg : List Char) (st : AppState) : AppState :=
  { st with error := some (toL "Runtime Error: " ++ msg) }

/-! ## `generateSimulation` and its validator (src/unnamed/part_000 lines 595-694) -/

/-- Case-insensitive literal matcher (regex `i` flag): compare lowercased. -/
def dropLitCI (p s : List Char) : Option (List Char) :=
  dropLit (p.map Char.toLower) (s.map Char.toLower) |>.map (fun _ => s.drop p.length)

/-- `/<(mesh|points|line|instancedMesh|drei\.)/i.test(code)`. -/
def hasMeshPrim (code : List Char) : Bool :=
  patTest (fun t =>
    (dropLit (toL "<") t).bind fun r =>
      ((dropLitCI (toL "mesh") r).orElse fun _ =>
       (dropLitCI (toL "points") r).orElse fun _ =>
       (dropLitCI (toL "line") r).orElse fun _ =>
       (dropLitCI (toL "instancedMesh") r).orElse fun _ =>
       dropLitCI (toL "drei.") r)) code

/-- `/return\s*\(/i.test(code)`. -/
def hasReturnParen (code : List Char) : Bool :=
  patTest (fun t =>
    (dropLitCI (toL "return") t).bind fun r =>
      dropLit (toL "(") (r.dropWhile isWs)) code

/-- `/<group/i.test(code)`. -/
def hasGroupTag (code : List Char) : Bool :=
  patTest (fun t => dropLitCI (toL "<group") t) code

/-- `validateSimulationCode` (src/unnamed/part_000 lines 598-603): the
local quality gate requiring a scene primitive, a parenthesised return,
and a group element. -/
def validateSimulationCode (code : List Char) : Bool :=
  hasMeshPrim code && hasReturnParen code && hasGroupTag code

/-- The auto-fix of `generateSimulation` (src/unnamed/part_000 lines
677-680): wrap the generated code in a returned `<group>` when it contains
no `return (`. -/
def autoFixWrap (code : List Char) : List Char :=
  if containsSub (toL "return (") code then code
  else toL "return (<group>" ++ code ++ toL "</group>);"

/-- `generateSimulation` (src/unnamed/part_000 lines 608-694): check the
visible vault (`PERFECT_SIMULATIONS`, first key contained in the lowercased
prompt), then the invisible vault (key or title match), then the session
cache, then fall back to the model. The model phase is represented by the
parsed JSON response (`none` when the model returned no text): auto-fix,
validate, and reject with `Generated code missing 3D elements.` when
validation fails. -/
def generateSimulation
    (perfectSims invisibleSims : List (List Char × SimResponse))
    (cache : List (List Char × SimResponse))
    (ai : Option SimResponse)
    (userPrompt : List Char) : Except (List Char) SimResponse :=
  let lowerPrompt := (jsTrim userPrompt).map Char.toLower
  match perfectSims.find? (fun kv => containsSub kv.1 lowerPrompt) with
  | some kv => .ok { kv.2 with sources := some [(toL "PhysiGen Library", toL "#")] }
  | none =>
    match invisibleSims.find? (fun kv =>
        containsSub kv.1 lowerPrompt ||
        (containsSub lowerPrompt (kv.2.title.map Char.toLower) ||
         containsSub (kv.2.title.map Char.toLower) lowerPrompt)) with
    | some kv => .ok { kv.2 with sources := some [(toL "PhysiGen Engine (Optimized)", toL "#")] }
    | none =>
      match cache.find? (fun kv => kv.1 = lowerPrompt) with
      | some kv => .ok kv.2
      | none =>
        match ai with
        | none => .error (toL "No response from Gemini")
        | some json =>
          let fixedCode := autoFixWrap json.componentCode
          if validateSimulationCode fixedCode then
            .ok { json with componentCode := fixedCode, sources := some [] }
          else
            .error (toL "Generated code missing 3D elements.")

/-! ## Combinator lemmas -/

theorem replaceFirst_of_splitFirst (m : List Char → Option (List Char)) (repl : List Char) :
    ∀ {s p r : List Char}, splitFirst m s = some (p, r) →
      replaceFirst m repl s = p ++ repl ++ r := by
  intro s
  induction s with
  | nil =>
    intro p r h
    simp only [splitFirst, Option.map_eq_some'] at h
    obtain ⟨r0, hm, hpr⟩ := h
    cases hpr
    simp [replaceFirst, hm]
  | cons c cs ih =>
    intro p r h
    simp only [splitFirst] at h
    cases hm : m (c :: cs) with
    | some rest =>
      rw [hm] at h
      cases h
      simp [replaceFirst, hm]
    | none =>
      rw [hm] at h
      simp only [Option.map_eq_some'] at h
      obtain ⟨⟨p', r'⟩, hs, hpr⟩ := h
      cases hpr
      simp [replaceFirst, hm, ih hs]

theorem patTest_true_of_splitFirst {m m' : List Char → Option (List Char)}
    (hmono : ∀ t, (m t).isSome → (m' t).isSome) :
    ∀ {s : List Char} {x : List Char × List Char}, splitFirst m s = some x →
      patTest m' s = true := by
  intro s
  induction s with
  | nil =>
    intro x h
    simp only [splitFirst, Option.map_eq_some'] at h
    obtain ⟨r0, hm, -⟩ := h
    have := hmono [] (by simp [hm])
    simpa [patTest] using this
  | cons c cs ih =>
    intro x h
    simp only [splitFirst] at h
    cases hm : m (c :: cs) with
    | some rest =>
      have := hmono (c :: cs) (by simp [hm])
      simp [patTest, this]
    | none =>
      rw [hm] at h
      simp only [Option.map_eq_some'] at h
      obtain ⟨y, hs, -⟩ := h
      simp [patTest, ih hs]

theorem isSome_pED_of_pEDFlit (t : List Char) :
    (pEDFlit t).isSome → (pED t).isSome := by
  unfold pEDFlit
  cases pED t <;> simp

/-! ## Claim theorems -/

/-- Claim C4: the sanitizer's shape classification maps each of the four
literal input shapes to the stated call target: a bare body is wrapped as
an anonymous render-function body bound to the canonical name
`DynamicComponent`; `export default function Foo()\x7b...\x7d` yields call
target `Foo`; `export default Foo;` with `Foo` defined earlier yields call
target `Foo`; `export default () => <a/>;` binds the expression to the
synthesized canonical name `DynamicComponent`, which becomes the call
target. -/
theorem sanitizeSource_shape_classification :
    (sanitizeSource (toL "return <a/>;")).sourceCode = wrapBody (toL "return <a/>;") ∧
    (sanitizeSource (toL "return <a/>;")).returnStatement = toL "return DynamicComponent;" ∧
    (sanitizeSource (toL "export default function Foo()\x7b return <a/>; \x7d")).sourceCode =
      toL "function Foo()\x7b return <a/>; \x7d" ∧
    (sanitizeSource (toL "export default function Foo()\x7b return <a/>; \x7d")).returnStatement =
      toL "return Foo;" ∧
    (sanitizeSource (toL "const Foo = () => <a/>;\nexport default Foo;")).sourceCode =
      toL "const Foo = () => <a/>;\n" ∧
    (sanitizeSource (toL "const Foo = () => <a/>;\nexport default Foo;")).returnStatement =
      toL "return Foo;" ∧
    (sanitizeSource (toL "export default () => <a/>;")).sourceCode =
      toL "const DynamicComponent = () => <a/>;" ∧
    (sanitizeSource (toL "export default () => <a/>;")).returnStatement =
      toL "return DynamicComponent;" := by
  refine ⟨rfl, rfl, rfl, rfl, rfl, rfl, rfl, rfl⟩

/-- Claim C7: when the external transpiler is not loaded,
`compileComponent` throws the distinct Babel-not-loaded error for every
input, without invoking the transpiler at all, and that error is
distinguishable (by constructor) from a transpiler syntax error. -/
theorem compileComponent_fails_fast_without_babel (ε : Type) :
    (∀ codeBody : List Char,
       (compileComponent (ε := ε) none codeBody).result =
         .error (.babelNotLoaded babelNotLoadedMessage) ∧
       (compileComponent (ε := ε) none codeBody).transformCalls = 0) ∧
    (∀ (m : List Char) (e : ε),
       (CompileThrown.babelNotLoaded m : CompileThrown ε) ≠ .babelError e) := by
  refine ⟨fun codeBody => ⟨rfl, rfl⟩, fun m e h => by cases h⟩

/-- Claim C8: when transpilation fails, `compileComponent` re-throws the
transpiler's own error unmodified and logs the exact source text that was
fed to the transpiler, before re-throwing at the outer boundary as well;
nothing is swallowed. -/
theorem compileComponent_propagates_babel_error (ε : Type)
    (transform : List Char → Except ε (List Char)) (codeBody : List Char) (e : ε)
    (h : transform (sanitizeSource codeBody).sourceCode = .error e) :
    (compileComponent (some transform) codeBody).result = .error (.babelError e) ∧
    (compileComponent (some transform) codeBody).logs =
      [.babelTransformFailedOn (sanitizeSource codeBody).sourceCode,
       .compilationError (.babelError e)] := by
  unfold compileComponent
  simp only [h]
  exact ⟨trivial, trivial⟩

def witnessBadBody : List Char := toL "return <a/"

def witnessTransform : List Char → Except (List Char) (List Char) :=
  fun _ => .error (toL "SyntaxError: Unexpected token")

/-- Witness for C8 at a concrete failing transform. -/
theorem compileComponent_propagates_babel_error_witness :
    witnessTransform (sanitizeSource witnessBadBody).sourceCode =
      .error (toL "SyntaxError: Unexpected token") ∧
    (compileComponent (some witnessTransform) witnessBadBody).result =
      .error (.babelError (toL "SyntaxError: Unexpected token")) ∧
    (compileComponent (some witnessTransform) witnessBadBody).logs =
      [.babelTransformFailedOn (sanitizeSource witnessBadBody).sourceCode,
       .compilationError (.babelError (toL "SyntaxError: Unexpected token"))] := by
  refine ⟨rfl, ?_, ?_⟩
  · exact (compileComponent_propagates_babel_error (List Char) witnessTransform
      witnessBadBody (toL "SyntaxError: Unexpected token") rfl).1
  · exact (compileComponent_propagates_babel_error (List Char) witnessTransform
      witnessBadBody (toL "SyntaxError: Unexpected token") rfl).2

def threeCallbacks : List (Nat → Nat → Nat × Nat × Nat) :=
  [fun s d => (0, s, d), fun s d => (1, s, d), fun s d => (2, s, d)]

/-- Claim C5: a callback registered through the Frame Gate is never invoked
while the pause flag is set (the wrapped callback returns without touching
it, identically for every callback), and on an unpaused tick each
registered callback is invoked exactly once with the frame state and delta
forwarded unchanged; concretely, 3 callbacks over 10 paused ticks produce
0 invocations and one unpaused tick invokes all 3 exactly once. -/
theorem frameGate_pause_correct :
    (∀ (α β γ : Type) (cb cb' : α → β → γ) (s : α) (d : β),
       wrappedFrameCallback true cb s d = none ∧
       wrappedFrameCallback true cb s d = wrappedFrameCallback true cb' s d) ∧
    (∀ (α β γ : Type) (cb : α → β → γ) (s : α) (d : β),
       wrappedFrameCallback false cb s d = some (cb s d)) ∧
    (∀ (γ : Type) (cbs : List (Nat → Nat → γ)) (s d : Nat),
       runTick cbs ⟨true, s, d⟩ = cbs.map (fun _ => none) ∧
       runTick cbs ⟨false, s, d⟩ = cbs.map (fun cb => some (cb s d))) ∧
    invocationCount (runTicks threeCallbacks (List.replicate 10 ⟨true, 5, 1⟩)) = 0 ∧
    runTicks threeCallbacks [⟨false, 7, 3⟩] =
      [[some (0, 7, 3), some (1, 7, 3), some (2, 7, 3)]] := by
  refine ⟨fun α β γ cb cb' s d => ⟨rfl, rfl⟩,
         fun α β γ cb s d => rfl,
         fun γ cbs s d => ⟨rfl, rfl⟩,
         rfl, rfl⟩

/-- Counterexample to claim C1 as stated: mounting a component whose body
throws during render makes the Failure Boundary catch the exception and
show the diagnostic fallback, yet `onError` (the Host's `onRuntimeError`
callback) is invoked zero times, not exactly once. -/
theorem errorBoundary_no_onRuntimeError_cex :
    (dynamicSceneMount (.ok ()) (.error (toL "boom"))).scene =
      .fallbackUI (toL "boom") ∧
    (dynamicSceneMount (.ok ()) (.error (toL "boom"))).onErrorCalls.length = 0 := by
  exact ⟨rfl, rfl⟩

/-- Claim C1 (amended): `onError` fires exactly once, with a non-empty
message, when `compileComponent` throws during mounting (and `App`
prefixes it with `Runtime Error: `); when instead the Failure Boundary
catches a render-time exception, it renders the diagnostic fallback
carrying the error's message and `onError` is not invoked. -/
theorem errorBoundary_reporting_amended :
    (∀ (e : List Char) (renderResult : Except (List Char) Unit),
       (dynamicSceneMount (.error e) renderResult).onErrorCalls =
         [jsOr e (toL "Failed to compile code")] ∧
       jsOr e (toL "Failed to compile code") ≠ [] ∧
       (dynamicSceneMount (.error e) renderResult).scene = .nothing) ∧
    (∀ m : List Char,
       (dynamicSceneMount (.ok ()) (.error m)).scene = .fallbackUI m ∧
       (dynamicSceneMount (.ok ()) (.error m)).onErrorCalls = []) ∧
    (∀ (msg : List Char) (st : AppState),
       (handleRuntimeError msg st).error = some (toL "Runtime Error: " ++ msg)) := by
  refine ⟨fun e renderResult => ⟨rfl, ?_, rfl⟩, fun m => ⟨rfl, rfl⟩, fun msg st => rfl⟩
  unfold jsOr
  split
  · decide
  · assumption

def simA : SimResponse :=
  { title := toL "Sim A", componentCode := toL "<mesh a/>",
    explanation := toL "a", sources := none }

def simB : SimResponse :=
  { title := toL "Sim B", componentCode := toL "<mesh b/>",
    explanation := toL "b", sources := none }

def raceInitialState : AppState :=
  { status := .READY,
    data := { code := toL "init", explanation := [], title := toL "Init", sources := [] },
    refreshKey := 0, error := none, currentPrompt := [] }

def racePerfectTable : List Char → Option SimResponse :=
  fun k => if k = toL "b" then some simB else none

/-- The interleaving in which generation of A starts, B is installed from
the library, and A's generation settles last. -/
def raceFinalState : AppState :=
  performGenerationSettle (.ok simA)
    (handlePresetClick (fun _ => none) racePerfectTable (toL "b")
      (performGenerationStart raceInitialState))

/-- Counterexample to claim C3 as stated: when SourceUnit A's compile is
started, SourceUnit B is installed before it settles, and A settles last,
the session ends READY with A's code installed — not in a state reflecting
B only. There is no generation check on settling. -/
theorem generation_cancellation_cex :
    raceFinalState.status = .READY ∧
    raceFinalState.data.code = simA.componentCode ∧
    simA.componentCode ≠ simB.componentCode := by
  refine ⟨rfl, rfl, by decide⟩

/-- Claim C3 (amended): a settling generation installs its result
unconditionally — the last completion wins, with `refreshKey` only forcing
a fresh remount — so a late result does overwrite a newer one; overlap is
instead prevented at the boundary, because preset selection and prompt
submission are disabled whenever the status is not READY or IDLE. -/
theorem generation_last_settle_wins_amended :
    (∀ (r : SimResponse) (st : AppState),
       performGenerationSettle (.ok r) st =
         { st with
           data := { code := r.componentCode, explanation := r.explanation,
                     title := r.title, sources := r.sources.getD [] },
           refreshKey := st.refreshKey + 1, status := .READY }) ∧
    controlsEnabled .GENERATING = false ∧
    controlsEnabled .MODIFYING = false ∧
    controlsEnabled .READY = true ∧
    controlsEnabled .IDLE = true := by
  exact ⟨fun r st => rfl, rfl, rfl, rfl, rfl⟩

/-- Claim C10: selecting a key present in neither table moves the session
to ERROR (with the error banner cleared, as the handler always does on
entry) while leaving the simulation data, the mount-generation counter,
and the current prompt exactly as they were. -/
theorem presetClick_missing_key_atomic
    (customSims perfectSims : List Char → Option SimResponse)
    (key : List Char) (st : AppState)
    (hc : customSims key = none) (hp : perfectSims key = none) :
    handlePresetClick customSims perfectSims key st =
      { st with status := .ERROR, error := none } ∧
    (handlePresetClick customSims perfectSims key st).data = st.data ∧
    (handlePresetClick customSims perfectSims key st).refreshKey = st.refreshKey ∧
    (handlePresetClick customSims perfectSims key st).currentPrompt = st.currentPrompt := by
  unfold handlePresetClick
  rw [hc]
  show (match (Option.orElse none fun _ => perfectSims key) with
        | none => _ | some sim => _) = _ ∧ _
  rw [show (Option.orElse none fun _ => perfectSims key) = perfectSims key from rfl, hp]
  exact ⟨rfl, rfl, rfl, rfl⟩

def missingKeyState : AppState :=
  { status := .READY,
    data := { code := toL "keep", explanation := toL "e", title := toL "T", sources := [] },
    refreshKey := 4, error := some (toL "old"), currentPrompt := toL "p" }

/-- Witness for C10 at a concrete missing key. -/
theorem presetClick_missing_key_atomic_witness :
    ((fun _ : List Char => (none : Option SimResponse)) (toL "ghost") = none) ∧
    ((fun _ : List Char => (none : Option SimResponse)) (toL "ghost") = none) ∧
    handlePresetClick (fun _ => none) (fun _ => none) (toL "ghost") missingKeyState =
      { missingKeyState with status := .ERROR, error := none } := by
  refine ⟨rfl, rfl, ?_⟩
  exact (presetClick_missing_key_atomic _ _ _ _ rfl rfl).1

/-- Claim C9: whenever the model-generated code fails the local validation
policy, `generateSimulation` rejects with the validation error rather than
returning it as a successful result, and the Host's settle step then moves
to ERROR without touching the installed data or the mount-generation
counter (no mount is attempted); in particular code without any
scene-primitive usage always fails the policy. -/
theorem generateSimulation_rejects_invalid
    (perfect invisible cache : List (List Char × SimResponse))
    (json : SimResponse) (prompt : List Char)
    (h1 : perfect.find?
        (fun kv => containsSub kv.1 ((jsTrim prompt).map Char.toLower)) = none)
    (h2 : invisible.find? (fun kv =>
        containsSub kv.1 ((jsTrim prompt).map Char.toLower) ||
        (containsSub ((jsTrim prompt).map Char.toLower) (kv.2.title.map Char.toLower) ||
         containsSub (kv.2.title.map Char.toLower) ((jsTrim prompt).map Char.toLower))) = none)
    (h3 : cache.find? (fun kv => kv.1 = (jsTrim prompt).map Char.toLower) = none)
    (hv : validateSimulationCode (autoFixWrap json.componentCode) = false) :
    generateSimulation perfect invisible cache (some json) prompt =
      .error (toL "Generated code missing 3D elements.") ∧
    (∀ st : AppState,
       performGenerationSettle
           (generateSimulation perfect invisible cache (some json) prompt) st =
         { st with status := .ERROR,
                   error := some (toL "Generated code missing 3D elements.") }) ∧
    (∀ c : List Char, hasMeshPrim c = false → validateSimulationCode c = false) := by
  have hgen : generateSimulation perfect invisible cache (some json) prompt =
      .error (toL "Generated code missing 3D elements.") := by
    unfold generateSimulation
    simp only [h1, h2, h3, hv, Bool.false_eq_true, if_false]
  refine ⟨hgen, fun st => ?_, fun c hc => ?_⟩
  · rw [hgen]; rfl
  · unfold validateSimulationCode
    rw [hc]
    rfl

def invalidJson : SimResponse :=
  { title := toL "Empty", componentCode := toL "return (<group></group>);",
    explanation := toL "nothing", sources := none }

/-- Witness for C9: with empty lookup tables and a generated component
containing no scene primitive, `generateSimulation` rejects. -/
theorem generateSimulation_rejects_invalid_witness :
    (([] : List (List Char × SimResponse)).find?
        (fun kv => containsSub kv.1 ((jsTrim (toL "zzz")).map Char.toLower)) = none) ∧
    validateSimulationCode (autoFixWrap invalidJson.componentCode) = false ∧
    generateSimulation [] [] [] (some invalidJson) (toL "zzz") =
      .error (toL "Generated code missing 3D elements.") := by
  refine ⟨rfl, rfl, ?_⟩
  exact (generateSimulation_rejects_invalid [] [] [] invalidJson (toL "zzz")
    rfl rfl rfl rfl).1

/-- Claim C2: for source text with a default-exported function (matched
structurally at `pre`/`post`) and no import lines or surrounding
whitespace, the sanitization step rewrites only the matched
`export default function` span to `function` and reproduces everything
after the match — in particular any trailing top-level declarations —
verbatim in its output; the call target is the exported function's name.
No trailing brace is removed. -/
theorem sanitizeSource_preserves_trailing
    (s pre post name : List Char)
    (htrim : jsTrim s = s)
    (himp : stripImports s = s)
    (hsplit : splitFirst pEDFlit s = some (pre, post))
    (hname : findCapture pEDFcap s = some name) :
    (sanitizeSource s).sourceCode = pre ++ toL "function" ++ post ∧
    (sanitizeSource s).returnStatement = toL "return " ++ name ++ toL ";" ∧
    ∀ mid trailing : List Char, post = mid ++ trailing →
      (sanitizeSource s).sourceCode = (pre ++ toL "function" ++ mid) ++ trailing := by
  have hclean : stripImports (jsTrim s) = s := by rw [htrim, himp]
  have htest : patTest pED s = true :=
    patTest_true_of_splitFirst (fun t => isSome_pED_of_pEDFlit t) hsplit
  have hsrc : (sanitizeSource s).sourceCode = pre ++ toL "function" ++ post := by
    unfold sanitizeSource
    simp only [hclean, htest, if_true, hname]
    exact replaceFirst_of_splitFirst pEDFlit (toL "function") hsplit
  refine ⟨hsrc, ?_, ?_⟩
  · unfold sanitizeSource
    simp only [hclean, htest, if_true, hname]
  · intro mid trailing hpost
    rw [hsrc, hpost]
    simp [List.append_assoc]

def trailingDeclBody : List Char :=
  toL "export default function Foo() \x7b return <a/>; \x7d\nfunction helperAfter() \x7b return 1; \x7d"

def trailingDeclPost : List Char :=
  toL " Foo() \x7b return <a/>; \x7d\nfunction helperAfter() \x7b return 1; \x7d"

/-- Witness for C2: a default-exported function followed by a helper
declaration; sanitization keeps the helper verbatim. -/
theorem sanitizeSource_preserves_trailing_witness :
    jsTrim trailingDeclBody = trailingDeclBody ∧
    stripImports trailingDeclBody = trailingDeclBody ∧
    splitFirst pEDFlit trailingDeclBody = some ([], trailingDeclPost) ∧
    findCapture pEDFcap trailingDeclBody = some (toL "Foo") ∧
    (sanitizeSource trailingDeclBody).sourceCode = toL "function" ++ trailingDeclPost ∧
    (sanitizeSource trailingDeclBody).returnStatement = toL "return Foo;" := by
  refine ⟨rfl, rfl, rfl, rfl, ?_, ?_⟩
  · exact (sanitizeSource_preserves_trailing trailingDeclBody [] trailingDeclPost
      (toL "Foo") rfl rfl rfl rfl).1
  · exact (sanitizeSource_preserves_trailing trailingDeclBody [] trailingDeclPost
      (toL "Foo") rfl rfl rfl rfl).2.1

/-! ## Line-level analysis of the import-removal passes (claim C6) -/

/-- Join lines with newline separators (inverse of splitting on `\n`). -/
def joinLines : List (List Char) → List Char
  | [] => []
  | [l] => l
  | l :: ls => l ++ '\n' :: joinLines ls

/-- Does `t` begin with the token `import` (the literal followed by
whitespace or the end of the text)? -/
def importTokenAt (t : List Char) : Bool :=
  match dropLit (toL "import") t with
  | none => false
  | some [] => true
  | some (c :: _) => isWs c

/-- A plain source line: nonblank and not beginning, after indentation,
with the `import` token. -/
def plainLine (l : List Char) : Bool :=
  !(l.dropWhile isWs).isEmpty && !importTokenAt (l.dropWhile isWs)

/-- The line's last non-whitespace character is a semicolon. -/
def endsSemi (l : List Char) : Bool :=
  match l.reverse.dropWhile isWs with
  | c :: _ => c = ';'
  | [] => false

/-- A line that begins an import declaration (`importFront` succeeds
within the line itself). -/
def importLineStart (l : List Char) : Bool :=
  (importFront l).isSome

/-- An import line terminated on itself: it begins an import declaration
and its last non-whitespace character is the semicolon. -/
def importLineSemi (l : List Char) : Bool :=
  importLineStart l && endsSemi l

/-- An unterminated import line that still carries non-whitespace content
after the `import` keyword (so the line-by-line fallback pass removes
exactly this line). -/
def importLineNoSemi (l : List Char) : Bool :=
  importLineStart l && !endsSemi l &&
    !((((l.dropWhile isWs).drop 6).dropWhile isWs).isEmpty)

def importCexInput : List Char := toL "import A from X\nconst keep = 1;"

/-- Counterexample to claim C6 as stated: when an import lacks its
terminating semicolon, the first removal pass consumes text through the
next semicolon-terminated line end, so the following non-import line
`const keep = 1;` is deleted rather than left unchanged. -/
theorem stripImports_destroys_following_line_cex :
    containsSub (toL "const keep = 1;") importCexInput = true ∧
    stripImports importCexInput = [] ∧
    containsSub (toL "const keep = 1;") (stripImports importCexInput) = false := by
  exact ⟨rfl, rfl, rfl⟩

/-! ### Basic helpers for the line-level analysis -/

theorem dropLit_self_append : ∀ (p r : List Char), dropLit p (p ++ r) = some r
  | [], r => rfl
  | c :: p, r => by simp [dropLit, dropLit_self_append p r]

theorem dropLit_eq_append : ∀ {p s u : List Char}, dropLit p s = some u → s = p ++ u := by
  intro p
  induction p with
  | nil => intro s u h; cases h; rfl
  | cons c p ih =>
    intro s u h
    cases s with
    | nil => cases h
    | cons d s' =>
      simp only [dropLit] at h
      split at h
      · next heq => cases heq; simpa using ih h
      · cases h

theorem dropLit_none_append_nl : ∀ {p t : List Char} (rest : List Char),
    dropLit p t = none → '\n' ∉ p → dropLit p (t ++ '\n' :: rest) = none := by
  intro p
  induction p with
  | nil => intro t rest h _; cases h
  | cons c p ih =>
    intro t rest h hnl
    cases t with
    | nil =>
      simp only [List.nil_append, dropLit]
      have : c ≠ '\n' := fun hc => hnl (hc ▸ List.mem_cons_self c p)
      rw [if_neg this]
    | cons d t' =>
      simp only [dropLit] at h ⊢
      split
      · next heq =>
        cases heq
        split at h
        · exact ih rest h (fun hm => hnl (List.mem_cons_of_mem _ hm))
        · simp_all
      · rfl

theorem dropWhile_ws_append_of_ne_nil : ∀ {l : List Char} (X : List Char),
    l.dropWhile isWs ≠ [] → (l ++ X).dropWhile isWs = l.dropWhile isWs ++ X := by
  intro l
  induction l with
  | nil => intro X h; exact absurd rfl h
  | cons c l ih =>
    intro X h
    by_cases hc : isWs c
    · simp only [List.cons_append, List.dropWhile_cons, hc, if_true] at h ⊢
      simpa [hc] using ih X (by simpa [hc] using h)
    · simp [List.dropWhile_cons, hc]

theorem dropWhile_ws_append_of_all : ∀ {l : List Char} (X : List Char),
    l.dropWhile isWs = [] → (l ++ X).dropWhile isWs = X.dropWhile isWs := by
  intro l
  induction l with
  | nil => intro X _; rfl
  | cons c l ih =>
    intro X h
    simp only [List.dropWhile_cons] at h
    split at h
    · next hc => simpa [List.dropWhile_cons, hc] using ih X h
    · cases h

theorem dropWhile_head_false : ∀ {l : List Char} {p : Char → Bool} {c : Char} {cs : List Char},
    l.dropWhile p = c :: cs → p c = false := by
  intro l
  induction l with
  | nil => intro p c cs h; cases h
  | cons d l ih =>
    intro p c cs h
    simp only [List.dropWhile_cons] at h
    split at h
    · exact ih h
    · next hd => cases h; simpa using hd

theorem mem_of_dropWhile_mem {p : Char → Bool} :
    ∀ {l : List Char} {a : Char}, a ∈ l.dropWhile p → a ∈ l := by
  intro l
  induction l with
  | nil => intro a h; cases h
  | cons c l ih =>
    intro a h
    simp only [List.dropWhile_cons] at h
    split at h
    · exact List.mem_cons_of_mem _ (ih h)
    · exact h

theorem mem_of_getLast?_eq : ∀ {l : List Char} {a : Char}, l.getLast? = some a → a ∈ l := by
  intro l
  induction l with
  | nil => intro a h; cases h
  | cons c l ih =>
    intro a h
    cases l with
    | nil =>
      simp only [List.getLast?_singleton, Option.some.injEq] at h
      simp [h]
    | cons d l' =>
      rw [List.getLast?_cons_cons] at h
      exact List.mem_cons_of_mem _ (ih h)


/-! ### `importFront` under line decompositions -/

theorem importFront_append {l u : List Char} (X : List Char)
    (hu : importFront l = some u) : importFront (l ++ X) = some (u ++ X) := by
  unfold importFront at hu ⊢
  cases hd : dropLit (toL "import") (l.dropWhile isWs) with
  | none => rw [hd] at hu; cases hu
  | some u0 =>
    rw [hd] at hu
    cases u0 with
    | nil => dsimp only at hu; cases hu
    | cons c u' =>
      dsimp only at hu
      by_cases hc : isWs c
      · rw [if_pos hc] at hu
        cases hu
        have hne : l.dropWhile isWs ≠ [] := by
          intro h0; rw [h0] at hd; cases hd
        rw [dropWhile_ws_append_of_ne_nil X hne, dropLit_eq_append hd,
            List.append_assoc, dropLit_self_append, List.cons_append]
        dsimp only
        rw [if_pos hc]
      · rw [if_neg hc] at hu; cases hu

theorem importFront_none_blank {l : List Char} (h : l.dropWhile isWs = []) :
    importFront l = none := by
  unfold importFront
  rw [h]
  rfl

theorem importFront_none_plain_append {l : List Char} (rest : List Char)
    (hp : plainLine l = true) :
    importFront (l ++ '\n' :: rest) = none ∧ importFront l = none := by
  unfold plainLine at hp
  rw [Bool.and_eq_true, Bool.not_eq_true', Bool.not_eq_true'] at hp
  obtain ⟨h1, h2⟩ := hp
  have hne : l.dropWhile isWs ≠ [] := by
    intro h0; rw [h0] at h1; simp at h1
  unfold importTokenAt at h2
  constructor
  · unfold importFront
    rw [dropWhile_ws_append_of_ne_nil _ hne]
    cases hd : dropLit (toL "import") (l.dropWhile isWs) with
    | none => rw [dropLit_none_append_nl rest hd (by decide)]
    | some u =>
      rw [hd] at h2
      cases u with
      | nil => dsimp only at h2; cases h2
      | cons c u' =>
        dsimp only at h2
        rw [dropLit_eq_append hd, List.append_assoc, dropLit_self_append,
            List.cons_append]
        dsimp only
        rw [if_neg (by rw [h2]; exact Bool.false_ne_true)]
  · unfold importFront
    cases hd : dropLit (toL "import") (l.dropWhile isWs) with
    | none => rfl
    | some u =>
      rw [hd] at h2
      cases u with
      | nil => dsimp only at h2; cases h2
      | cons c u' =>
        dsimp only at h2
        dsimp only
        rw [if_neg (by rw [h2]; exact Bool.false_ne_true)]

theorem joinLines_cons_cons (l l₂ : List Char) (ls : List (List Char)) :
    joinLines (l :: l₂ :: ls) = l ++ '\n' :: joinLines (l₂ :: ls) := rfl

theorem importFront_join_none : ∀ (ls : List (List Char)),
    (∀ l ∈ ls, '\n' ∉ l ∧ (l.dropWhile isWs = [] ∨ plainLine l = true)) →
    importFront (joinLines ls) = none := by
  intro ls
  induction ls with
  | nil => intro _; rfl
  | cons l ls ih =>
    intro h
    obtain ⟨-, hcase⟩ := h l (List.mem_cons_self l ls)
    have hrest := fun l' hl' => h l' (List.mem_cons_of_mem l hl')
    cases ls with
    | nil =>
      cases hcase with
      | inl hb => exact importFront_none_blank hb
      | inr hp => exact (importFront_none_plain_append [] hp).2
    | cons l₂ ls' =>
      rw [joinLines_cons_cons]
      cases hcase with
      | inl hb =>
        have hdw : (l ++ '\n' :: joinLines (l₂ :: ls')).dropWhile isWs =
            (joinLines (l₂ :: ls')).dropWhile isWs := by
          rw [dropWhile_ws_append_of_all _ hb, List.dropWhile_cons]
          rw [if_pos (by decide : isWs '\n' = true)]
        unfold importFront
        rw [hdw]
        have htail := ih hrest
        unfold importFront at htail
        exact htail
      | inr hp => exact (importFront_none_plain_append _ hp).1

/-! ### `lineEndCutK` under line decompositions -/

theorem lineEndCutK_all_ws : ∀ {l : List Char}, (∀ c ∈ l, isWs c = true) →
    lineEndCutK l = some l.length := by
  intro l
  induction l with
  | nil => intro _; rfl
  | cons c l ih =>
    intro h
    have hc := h c (List.mem_cons_self c l)
    show (if isWs c = true then
            match lineEndCutK l with
            | some k => some (k + 1)
            | none => if c = '\n' then some 0 else none
          else none) = some (c :: l).length
    rw [if_pos hc, ih (fun d hd => h d (List.mem_cons_of_mem _ hd))]
    rfl

theorem lineEndCutK_ws_nl : ∀ {w : List Char} {rest : List Char},
    (∀ c ∈ w, isWs c = true) → lineEndCutK rest = none →
    lineEndCutK (w ++ '\n' :: rest) = some w.length := by
  intro w
  induction w with
  | nil =>
    intro rest _ hr
    show (if isWs '\n' = true then
            match lineEndCutK rest with
            | some k => some (k + 1)
            | none => if '\n' = '\n' then some 0 else none
          else none) = some 0
    rw [if_pos (by decide : isWs '\n' = true), hr]
    rfl
  | cons c w ih =>
    intro rest h hr
    have hc := h c (List.mem_cons_self c w)
    rw [List.cons_append]
    show (if isWs c = true then
            match lineEndCutK (w ++ '\n' :: rest) with
            | some k => some (k + 1)
            | none => if c = '\n' then some 0 else none
          else none) = some (c :: w).length
    rw [if_pos hc, ih (fun d hd => h d (List.mem_cons_of_mem _ hd)) hr]
    rfl

theorem lineEndCutK_blocked : ∀ {w : List Char} {x : Char} {r : List Char},
    (∀ c ∈ w, isWs c = true ∧ c ≠ '\n') → isWs x = false →
    lineEndCutK (w ++ x :: r) = none := by
  intro w
  induction w with
  | nil =>
    intro x r _ hx
    show (if isWs x = true then
            match lineEndCutK r with
            | some k => some (k + 1)
            | none => if x = '\n' then some 0 else none
          else none) = none
    rw [if_neg (by rw [hx]; exact Bool.false_ne_true)]
  | cons c w ih =>
    intro x r h hx
    obtain ⟨hc, hcn⟩ := h c (List.mem_cons_self c w)
    rw [List.cons_append]
    show (if isWs c = true then
            match lineEndCutK (w ++ x :: r) with
            | some k => some (k + 1)
            | none => if c = '\n' then some 0 else none
          else none) = none
    rw [if_pos hc, ih (fun d hd => h d (List.mem_cons_of_mem _ hd)) hx, if_neg hcn]

/-- There is a non-whitespace character before the first newline (so the
`\s*$` search of the first pass cannot cut here). -/
def hasNonWsBeforeNl : List Char → Bool
  | [] => false
  | c :: cs => if c = '\n' then false else if isWs c then hasNonWsBeforeNl cs else true

theorem lineEndCutK_none_of_hasNonWs : ∀ {s : List Char},
    hasNonWsBeforeNl s = true → lineEndCutK s = none := by
  intro s
  induction s with
  | nil => intro h; cases h
  | cons c cs ih =>
    intro h
    simp only [hasNonWsBeforeNl] at h
    by_cases hnl : c = '\n'
    · rw [if_pos hnl] at h; cases h
    · rw [if_neg hnl] at h
      by_cases hc : isWs c
      · rw [if_pos hc] at h
        show (if isWs c = true then
                match lineEndCutK cs with
                | some k => some (k + 1)
                | none => if c = '\n' then some 0 else none
              else none) = none
        rw [if_pos hc, ih h, if_neg hnl]
      · show (if isWs c = true then
                match lineEndCutK cs with
                | some k => some (k + 1)
                | none => if c = '\n' then some 0 else none
              else none) = none
        rw [if_neg hc]

theorem hasNonWsBeforeNl_of_ne_nil : ∀ {l : List Char},
    l.dropWhile isWs ≠ [] → '\n' ∉ l → ∀ X : List Char,
    hasNonWsBeforeNl (l ++ X) = true := by
  intro l
  induction l with
  | nil => intro h _ _; exact absurd rfl h
  | cons c l ih =>
    intro h hnl X
    have hcn : c ≠ '\n' := fun hc => hnl (hc ▸ List.mem_cons_self c l)
    by_cases hc : isWs c
    · simp only [List.dropWhile_cons, hc, if_true] at h
      show (if c = '\n' then false else if isWs c then hasNonWsBeforeNl (l ++ X) else true) = true
      rw [if_neg hcn, if_pos hc]
      exact ih h (fun hm => hnl (List.mem_cons_of_mem _ hm)) X
    · show (if c = '\n' then false else if isWs c then hasNonWsBeforeNl (l ++ X) else true) = true
      rw [if_neg hcn, if_neg hc]


/-! ### `findSemi` under line decompositions -/

/-- Every semicolon of `u` is followed, within `u`, by a non-whitespace
character. -/
def semiSafe (u : List Char) : Prop :=
  ∀ a b : List Char, u = a ++ ';' :: b → ∃ x ∈ b, isWs x = false

theorem dropWhile_append_of_all {p : Char → Bool} : ∀ {l : List Char} (X : List Char),
    (∀ c ∈ l, p c = true) → (l ++ X).dropWhile p = X.dropWhile p := by
  intro l
  induction l with
  | nil => intro X _; rfl
  | cons c l ih =>
    intro X h
    have hc := h c (List.mem_cons_self c l)
    rw [List.cons_append, List.dropWhile_cons, if_pos hc]
    exact ih X (fun d hd => h d (List.mem_cons_of_mem _ hd))

theorem semiSafe_of_endsSemi_false {l : List Char}
    (h : endsSemi l = false) : semiSafe l := by
  intro a b hab
  by_contra hno
  push_neg at hno
  have hws : ∀ x ∈ b.reverse, isWs x = true := by
    intro x hx
    have := hno x (List.mem_reverse.mp hx)
    simpa using this
  have hrev : l.reverse = b.reverse ++ ';' :: a.reverse := by
    rw [hab, List.reverse_append, List.reverse_cons, List.append_assoc]
    simp
  rw [endsSemi, hrev, dropWhile_append_of_all _ hws, List.dropWhile_cons,
      if_neg (by decide : ¬ (isWs ';' = true))] at h
  exact absurd h (by simp)

theorem semiSafe_append_left {p u : List Char} (h : semiSafe (p ++ u)) : semiSafe u := by
  intro a b hab
  exact h (p ++ a) b (by rw [hab, List.append_assoc])

theorem semiSafe_cons {c : Char} {u : List Char} (h : semiSafe (c :: u)) : semiSafe u :=
  semiSafe_append_left (p := [c]) h

theorem findSemi_none_of_semiSafe : ∀ (u : List Char), '\n' ∉ u → semiSafe u →
    ∀ (tail : List Char), findSemi tail = none → findSemi (u ++ tail) = none := by
  intro u
  induction u with
  | nil => intro _ _ tail ht; simpa using ht
  | cons c u' ih =>
    intro hnl hss tail ht
    rw [List.cons_append]
    by_cases hc : c = ';'
    · subst hc
      obtain ⟨x, hxmem, hxws⟩ := hss [] u' rfl
      have hdne : u'.dropWhile isWs ≠ [] := by
        intro h0
        rw [List.dropWhile_eq_nil_iff] at h0
        rw [h0 x hxmem] at hxws
        cases hxws
      cases hdx : u'.dropWhile isWs with
      | nil => exact absurd hdx hdne
      | cons y m =>
        have hy : isWs y = false := dropWhile_head_false hdx
        have hu' : u' = u'.takeWhile isWs ++ y :: m := by
          conv_lhs => rw [← List.takeWhile_append_dropWhile (p := isWs) (l := u')]
          rw [hdx]
        have hblock : lineEndCutK (u' ++ tail) = none := by
          rw [hu', List.append_assoc, List.cons_append]
          exact lineEndCutK_blocked
            (fun d hd => ⟨List.mem_takeWhile_imp hd,
              fun hdn => hnl (List.mem_cons_of_mem _
                ((List.takeWhile_prefix (p := isWs)).subset (hdn ▸ hd)))⟩) hy
        show (if ';' = ';' then
                match lineEndCutK (u' ++ tail) with
                | some k => some (decide (k ≠ 0 ∧ ((u' ++ tail).take k).getLast? = some '\n'),
                    (u' ++ tail).drop k)
                | none => findSemi (u' ++ tail)
              else findSemi (u' ++ tail)) = none
        rw [if_pos rfl, hblock]
        exact ih (fun hm => hnl (List.mem_cons_of_mem _ hm)) (semiSafe_cons hss) tail ht
    · show (if c = ';' then
              match lineEndCutK (u' ++ tail) with
              | some k => some (decide (k ≠ 0 ∧ ((u' ++ tail).take k).getLast? = some '\n'),
                  (u' ++ tail).drop k)
              | none => findSemi (u' ++ tail)
            else findSemi (u' ++ tail)) = none
      rw [if_neg hc]
      exact ih (fun hm => hnl (List.mem_cons_of_mem _ hm)) (semiSafe_cons hss) tail ht

theorem findSemi_join_none : ∀ (ls : List (List Char)),
    (∀ l ∈ ls, '\n' ∉ l ∧ endsSemi l = false) →
    findSemi (joinLines ls) = none := by
  intro ls
  induction ls with
  | nil => intro _; rfl
  | cons l ls ih =>
    intro h
    obtain ⟨hnl, hsemi⟩ := h l (List.mem_cons_self l ls)
    have hrest := fun l' hl' => h l' (List.mem_cons_of_mem l hl')
    cases ls with
    | nil =>
      have := findSemi_none_of_semiSafe l hnl (semiSafe_of_endsSemi_false hsemi) [] rfl
      simpa using this
    | cons l₂ ls' =>
      rw [joinLines_cons_cons]
      refine findSemi_none_of_semiSafe l hnl (semiSafe_of_endsSemi_false hsemi)
        ('\n' :: joinLines (l₂ :: ls')) ?_
      show (if '\n' = ';' then
              match lineEndCutK (joinLines (l₂ :: ls')) with
              | some k => some (decide (k ≠ 0 ∧ ((joinLines (l₂ :: ls')).take k).getLast? = some '\n'),
                  (joinLines (l₂ :: ls')).drop k)
              | none => findSemi (joinLines (l₂ :: ls'))
            else findSemi (joinLines (l₂ :: ls'))) = none
      rw [if_neg (by decide : ¬ ('\n' = ';'))]
      exact ih hrest

/-- A tail after which the `\s*$` cut of the first pass succeeds exactly at
the line boundary: the end of input, or a newline followed by text with no
whitespace-to-line-end cut. -/
def goodTail (tail : List Char) : Prop :=
  tail = [] ∨ ∃ rest, tail = '\n' :: rest ∧ lineEndCutK rest = none

theorem lineEndCutK_ws_goodTail {w : List Char} (hw : ∀ c ∈ w, isWs c = true)
    {tail : List Char} (ht : goodTail tail) :
    lineEndCutK (w ++ tail) = some w.length := by
  cases ht with
  | inl h => subst h; rw [List.append_nil]; exact lineEndCutK_all_ws hw
  | inr h =>
    obtain ⟨rest, rfl, hr⟩ := h
    exact lineEndCutK_ws_nl hw hr

theorem endsSemi_cons_elim {c : Char} {u' : List Char}
    (h : endsSemi (c :: u') = true) :
    (endsSemi u' = true ∧ u'.reverse.dropWhile isWs ≠ []) ∨
    ((∀ x ∈ u', isWs x = true) ∧ c = ';') := by
  unfold endsSemi at h
  rw [List.reverse_cons] at h
  cases hdw : u'.reverse.dropWhile isWs with
  | nil =>
    right
    refine ⟨fun x hx => ?_, ?_⟩
    · rw [List.dropWhile_eq_nil_iff] at hdw
      exact hdw x (List.mem_reverse.mpr hx)
    · rw [dropWhile_ws_append_of_all _ hdw] at h
      by_cases hc : isWs c
      · rw [List.dropWhile_cons, if_pos hc] at h
        cases h
      · rw [List.dropWhile_cons, if_neg hc] at h
        exact of_decide_eq_true h
  | cons y ys =>
    left
    rw [dropWhile_ws_append_of_ne_nil _ (by rw [hdw]; exact List.cons_ne_nil y ys), hdw,
        List.cons_append] at h
    have hy : y = ';' := of_decide_eq_true h
    constructor
    · unfold endsSemi
      rw [hdw, hy]
      rfl
    · exact List.cons_ne_nil y ys

theorem findSemi_good : ∀ (u : List Char), '\n' ∉ u → endsSemi u = true →
    ∀ (tail : List Char), goodTail tail →
    findSemi (u ++ tail) = some (false, tail) := by
  intro u
  induction u with
  | nil =>
    intro _ h
    exact absurd h (by decide)
  | cons c u' ih =>
    intro hnl h tail hgt
    rw [List.cons_append]
    have hnl' : '\n' ∉ u' := fun hm => hnl (List.mem_cons_of_mem _ hm)
    by_cases hc : c = ';'
    · subst hc
      rcases endsSemi_cons_elim h with ⟨hsemi', hne⟩ | ⟨hallws, -⟩
      · have hdne : u'.dropWhile isWs ≠ [] := by
          intro h0
          rw [List.dropWhile_eq_nil_iff] at h0
          apply hne
          rw [List.dropWhile_eq_nil_iff]
          intro x hx
          exact h0 x (List.mem_reverse.mp hx)
        cases hdx : u'.dropWhile isWs with
        | nil => exact absurd hdx hdne
        | cons y m =>
          have hy := dropWhile_head_false hdx
          have hu' : u' = u'.takeWhile isWs ++ y :: m := by
            conv_lhs => rw [← List.takeWhile_append_dropWhile (p := isWs) (l := u')]
            rw [hdx]
          have hblock : lineEndCutK (u' ++ tail) = none := by
            conv_lhs => rw [hu', List.append_assoc, List.cons_append]
            exact lineEndCutK_blocked
              (fun d hd => ⟨List.mem_takeWhile_imp hd,
                fun hdn => hnl' ((List.takeWhile_prefix (p := isWs)).subset (hdn ▸ hd))⟩) hy
          show (if ';' = ';' then
                  match lineEndCutK (u' ++ tail) with
                  | some k => some (decide (k ≠ 0 ∧ ((u' ++ tail).take k).getLast? = some '\n'),
                      (u' ++ tail).drop k)
                  | none => findSemi (u' ++ tail)
                else findSemi (u' ++ tail)) = some (false, tail)
          rw [if_pos rfl, hblock]
          exact ih hnl' hsemi' tail hgt
      · have hcut : lineEndCutK (u' ++ tail) = some u'.length :=
          lineEndCutK_ws_goodTail hallws hgt
        show (if ';' = ';' then
                match lineEndCutK (u' ++ tail) with
                | some k => some (decide (k ≠ 0 ∧ ((u' ++ tail).take k).getLast? = some '\n'),
                    (u' ++ tail).drop k)
                | none => findSemi (u' ++ tail)
              else findSemi (u' ++ tail)) = some (false, tail)
        rw [if_pos rfl, hcut]
        dsimp only
        have htake : (u' ++ tail).take u'.length = u' := List.take_left u' tail
        have hflag : decide (u'.length ≠ 0 ∧
            ((u' ++ tail).take u'.length).getLast? = some '\n') = false := by
          rw [htake]
          apply decide_eq_false
          rintro ⟨-, hl⟩
          exact hnl' (mem_of_getLast?_eq hl)
        rw [hflag, List.drop_left]
    · rcases endsSemi_cons_elim h with ⟨hsemi', -⟩ | ⟨-, hc'⟩
      · show (if c = ';' then
                match lineEndCutK (u' ++ tail) with
                | some k => some (decide (k ≠ 0 ∧ ((u' ++ tail).take k).getLast? = some '\n'),
                    (u' ++ tail).drop k)
                | none => findSemi (u' ++ tail)
              else findSemi (u' ++ tail)) = some (false, tail)
        rw [if_neg hc]
        exact ih hnl' hsemi' tail hgt
      · exact absurd hc' hc


/-! ### The import matchers on classified lines -/

theorem importFront_decomp {l u : List Char} (hu : importFront l = some u) :
    l.dropWhile isWs = toL "import" ++ u := by
  unfold importFront at hu
  cases hd : dropLit (toL "import") (l.dropWhile isWs) with
  | none => rw [hd] at hu; cases hu
  | some u0 =>
    rw [hd] at hu
    cases u0 with
    | nil => dsimp only at hu; cases hu
    | cons c u' =>
      dsimp only at hu
      by_cases hc : isWs c
      · rw [if_pos hc] at hu
        cases hu
        exact dropLit_eq_append hd
      · rw [if_neg hc] at hu; cases hu

theorem importFront_of_importLineStart {l : List Char} (h : importLineStart l = true) :
    ∃ u, importFront l = some u := by
  rw [importLineStart] at h
  exact Option.isSome_iff_exists.mp h

theorem importLineStart_dropWhile_ne_nil {l : List Char}
    (h : importLineStart l = true) : l.dropWhile isWs ≠ [] := by
  intro h0
  rw [importLineStart, importFront_none_blank h0] at h
  cases h

theorem line_eq_of_front {l u : List Char} (hu : importFront l = some u) :
    l = (l.takeWhile isWs ++ toL "import") ++ u := by
  conv_lhs => rw [← List.takeWhile_append_dropWhile (p := isWs) (l := l)]
  rw [importFront_decomp hu, ← List.append_assoc]

theorem mem_of_front_mem {l u : List Char} (hu : importFront l = some u)
    {x : Char} (hx : x ∈ u) : x ∈ l := by
  have hmem : x ∈ l.dropWhile isWs := by
    rw [importFront_decomp hu]
    exact List.mem_append_right _ hx
  exact mem_of_dropWhile_mem hmem

theorem endsSemi_append_import {w u : List Char}
    (h : endsSemi ((w ++ toL "import") ++ u) = true) : endsSemi u = true := by
  unfold endsSemi at h ⊢
  rw [List.reverse_append] at h
  cases hdw : u.reverse.dropWhile isWs with
  | nil =>
    rw [dropWhile_ws_append_of_all _ hdw, List.reverse_append,
        show (toL "import").reverse = 't' :: toL "ropmi" from rfl,
        List.cons_append, List.dropWhile_cons,
        if_neg (by decide : ¬ (isWs 't' = true))] at h
    exact absurd (of_decide_eq_true h) (by decide)
  | cons y ys =>
    rw [dropWhile_ws_append_of_ne_nil _ (by rw [hdw]; exact List.cons_ne_nil y ys), hdw,
        List.cons_append] at h
    have hy : y = ';' := of_decide_eq_true h
    rw [hy]
    rfl

theorem endsSemi_of_front {l u : List Char} (hu : importFront l = some u)
    (h : endsSemi l = true) : endsSemi u = true := by
  rw [line_eq_of_front hu] at h
  exact endsSemi_append_import h

theorem semiSafe_of_front {l u : List Char} (hu : importFront l = some u)
    (h : semiSafe l) : semiSafe u := by
  rw [line_eq_of_front hu] at h
  exact semiSafe_append_left h

theorem matchImport1_semi {l : List Char} (hl : importLineSemi l = true)
    (hnl : '\n' ∉ l) (tail : List Char) (hgt : goodTail tail) :
    matchImport1 (l ++ tail) = some (false, tail) := by
  rw [importLineSemi, Bool.and_eq_true] at hl
  obtain ⟨hstart, hsemi⟩ := hl
  obtain ⟨u, hu⟩ := importFront_of_importLineStart hstart
  rw [matchImport1, importFront_append tail hu, Option.some_bind]
  exact findSemi_good u (fun hm => hnl (mem_of_front_mem hu hm))
    (endsSemi_of_front hu hsemi) tail hgt

theorem matchImports_plain {l : List Char} (rest : List Char) (hp : plainLine l = true) :
    matchImport1 (l ++ '\n' :: rest) = none ∧ matchImport1 l = none ∧
    matchImport2 (l ++ '\n' :: rest) = none ∧ matchImport2 l = none := by
  obtain ⟨h1, h2⟩ := importFront_none_plain_append rest hp
  refine ⟨?_, ?_, ?_, ?_⟩ <;> simp [matchImport1, matchImport2, h1, h2]

theorem matchImport1_noSemi {l : List Char} (hstart : importLineStart l = true)
    (hnl : '\n' ∉ l) (hsemi : endsSemi l = false) (tail : List Char)
    (ht : findSemi tail = none) : matchImport1 (l ++ tail) = none := by
  obtain ⟨u, hu⟩ := importFront_of_importLineStart hstart
  rw [matchImport1, importFront_append tail hu, Option.some_bind]
  exact findSemi_none_of_semiSafe u (fun hm => hnl (mem_of_front_mem hu hm))
    (semiSafe_of_front hu (semiSafe_of_endsSemi_false hsemi)) tail ht

theorem matchImport2_import {l : List Char} (hl : importLineNoSemi l = true)
    (hnl : '\n' ∉ l) (tail : List Char)
    (ht : tail = [] ∨ ∃ rest, tail = '\n' :: rest) :
    matchImport2 (l ++ tail) = some (false, tail) := by
  rw [importLineNoSemi, Bool.and_eq_true, Bool.and_eq_true] at hl
  obtain ⟨⟨hstart, -⟩, hcontent⟩ := hl
  obtain ⟨u, hu⟩ := importFront_of_importLineStart hstart
  rw [matchImport2, importFront_append tail hu, Option.some_bind]
  have hdrop6 : (l.dropWhile isWs).drop 6 = u := by
    rw [importFront_decomp hu]
    exact List.drop_left (toL "import") u
  rw [Bool.not_eq_true', List.isEmpty_eq_false, hdrop6] at hcontent
  have hv : (u ++ tail).dropWhile isWs = u.dropWhile isWs ++ tail :=
    dropWhile_ws_append_of_ne_nil tail hcontent
  rw [hv]
  have hall : ∀ c ∈ u.dropWhile isWs, (fun c => decide ¬(c = '\n')) c = true := by
    intro c hc
    have : c ∈ l := mem_of_front_mem hu (mem_of_dropWhile_mem hc)
    simp only [decide_eq_true_eq]
    intro hcn
    exact hnl (hcn ▸ this)
  rw [dropWhile_append_of_all tail hall]
  cases ht with
  | inl h => subst h; rfl
  | inr h =>
    obtain ⟨rest, rfl⟩ := h
    rw [List.dropWhile_cons, if_neg (by decide)]


/-! ### The global-replace scanner on classified lines -/

theorem scanGo_nil (m : List Char → Option (Bool × List Char)) (fuel : Nat) (b : Bool) :
    scanGo m fuel b [] = [] := by
  cases fuel <;> rfl

theorem scanGo_false_line (m : List Char → Option (Bool × List Char)) :
    ∀ (l rest : List Char) (F : Nat), '\n' ∉ l →
    scanGo m (F + l.length + 1) false (l ++ '\n' :: rest) =
      l ++ '\n' :: scanGo m F true rest := by
  intro l
  induction l with
  | nil =>
    intro rest F _
    show scanGo m (F + 0 + 1) false ('\n' :: rest) = '\n' :: scanGo m F true rest
    rw [Nat.add_zero]
    rfl
  | cons c l ih =>
    intro rest F hnl
    have hcn : (decide (c = '\n')) = false :=
      decide_eq_false (fun h => hnl (h ▸ List.mem_cons_self c l))
    have harith : F + (c :: l).length + 1 = (F + l.length + 1) + 1 := by
      simp [List.length_cons]
      omega
    rw [harith, List.cons_append]
    have step : scanGo m ((F + l.length + 1) + 1) false (c :: (l ++ '\n' :: rest)) =
        c :: scanGo m (F + l.length + 1) (decide (c = '\n')) (l ++ '\n' :: rest) := rfl
    rw [step, hcn, ih rest F (fun hm => hnl (List.mem_cons_of_mem _ hm))]
    rfl

theorem scanGo_false_last (m : List Char → Option (Bool × List Char)) :
    ∀ (l : List Char) (F : Nat), '\n' ∉ l → l.length ≤ F →
    scanGo m F false l = l := by
  intro l
  induction l with
  | nil => intro F _ _; exact scanGo_nil m F false
  | cons c l ih =>
    intro F hnl hF
    cases F with
    | zero => simp [List.length_cons] at hF
    | succ F' =>
      have hcn : (decide (c = '\n')) = false :=
        decide_eq_false (fun h => hnl (h ▸ List.mem_cons_self c l))
      have step : scanGo m (F' + 1) false (c :: l) =
          c :: scanGo m F' (decide (c = '\n')) l := rfl
      rw [step, hcn, ih F' (fun hm => hnl (List.mem_cons_of_mem _ hm))
        (by simp [List.length_cons] at hF; omega)]

theorem scanGo_true_nomatch_line (m : List Char → Option (Bool × List Char))
    (l rest : List Char) (F : Nat)
    (hm : m (l ++ '\n' :: rest) = none) (hnl : '\n' ∉ l) :
    scanGo m (F + l.length + 1) true (l ++ '\n' :: rest) =
      l ++ '\n' :: scanGo m F true rest := by
  cases l with
  | nil =>
    show scanGo m (F + 0 + 1) true ('\n' :: rest) = '\n' :: scanGo m F true rest
    rw [Nat.add_zero]
    have step : scanGo m (F + 1) true ('\n' :: rest) =
        match m ('\n' :: rest) with
        | some (nl, r) => scanGo m F nl r
        | none => '\n' :: scanGo m F (decide ('\n' = '\n')) rest := rfl
    rw [step]
    rw [show ([] : List Char) ++ '\n' :: rest = '\n' :: rest from rfl] at hm
    rw [hm]
    rfl
  | cons c l₀ =>
    have hcn : (decide (c = '\n')) = false :=
      decide_eq_false (fun h => hnl (h ▸ List.mem_cons_self c l₀))
    have harith : F + (c :: l₀).length + 1 = (F + l₀.length + 1) + 1 := by
      simp [List.length_cons]
      omega
    rw [harith, List.cons_append]
    rw [List.cons_append] at hm
    have step : scanGo m ((F + l₀.length + 1) + 1) true (c :: (l₀ ++ '\n' :: rest)) =
        match m (c :: (l₀ ++ '\n' :: rest)) with
        | some (nl, r) => scanGo m (F + l₀.length + 1) nl r
        | none => c :: scanGo m (F + l₀.length + 1) (decide (c = '\n')) (l₀ ++ '\n' :: rest) := rfl
    rw [step, hm, hcn,
      scanGo_false_line m l₀ rest F (fun hmm => hnl (List.mem_cons_of_mem _ hmm))]
    rfl

theorem scanGo_true_nomatch_last (m : List Char → Option (Bool × List Char))
    (l : List Char) (F : Nat) (hm : m l = none) (hnl : '\n' ∉ l) (hF : l.length ≤ F) :
    scanGo m F true l = l := by
  cases l with
  | nil => exact scanGo_nil m F true
  | cons c l₀ =>
    cases F with
    | zero => simp [List.length_cons] at hF
    | succ F' =>
      have hcn : (decide (c = '\n')) = false :=
        decide_eq_false (fun h => hnl (h ▸ List.mem_cons_self c l₀))
      have step : scanGo m (F' + 1) true (c :: l₀) =
          match m (c :: l₀) with
          | some (nl, r) => scanGo m F' nl r
          | none => c :: scanGo m F' (decide (c = '\n')) l₀ := rfl
      rw [step, hm, hcn, scanGo_false_last m l₀ F'
        (fun hmm => hnl (List.mem_cons_of_mem _ hmm))
        (by simp [List.length_cons] at hF; omega)]

theorem scanGo_true_match_line (m : List Char → Option (Bool × List Char))
    (l rest : List Char) (F : Nat)
    (hm : m (l ++ '\n' :: rest) = some (false, '\n' :: rest)) (hne : l ≠ []) :
    scanGo m (F + 2) true (l ++ '\n' :: rest) = '\n' :: scanGo m F true rest := by
  cases l with
  | nil => exact absurd rfl hne
  | cons c l₀ =>
    rw [List.cons_append] at hm ⊢
    have step : scanGo m ((F + 1) + 1) true (c :: (l₀ ++ '\n' :: rest)) =
        match m (c :: (l₀ ++ '\n' :: rest)) with
        | some (nl, r) => scanGo m (F + 1) nl r
        | none => c :: scanGo m (F + 1) (decide (c = '\n')) (l₀ ++ '\n' :: rest) := rfl
    rw [show F + 2 = (F + 1) + 1 from rfl, step, hm]
    rfl

theorem scanGo_true_match_last (m : List Char → Option (Bool × List Char))
    (l : List Char) (F : Nat)
    (hm : m l = some (false, [])) (hne : l ≠ []) :
    scanGo m (F + 1) true l = [] := by
  cases l with
  | nil => exact absurd rfl hne
  | cons c l₀ =>
    have step : scanGo m (F + 1) true (c :: l₀) =
        match m (c :: l₀) with
        | some (nl, r) => scanGo m F nl r
        | none => c :: scanGo m F (decide (c = '\n')) l₀ := rfl
    rw [step, hm]
    exact scanGo_nil m F false


/-! ### The passes on line-classified inputs -/

theorem importLineSemi_false_of_plain {l : List Char} (hp : plainLine l = true) :
    importLineSemi l = false := by
  rw [importLineSemi, importLineStart, (importFront_none_plain_append [] hp).2]
  rfl

theorem importLineNoSemi_false_of_plain {l : List Char} (hp : plainLine l = true) :
    importLineNoSemi l = false := by
  rw [importLineNoSemi, importLineStart, (importFront_none_plain_append [] hp).2]
  rfl

theorem ne_nil_of_importLineStart {l : List Char} (h : importLineStart l = true) :
    l ≠ [] := by
  intro h0
  rw [h0] at h
  exact absurd h (by decide)

theorem plainLine_dropWhile_ne_nil {l : List Char} (hp : plainLine l = true) :
    l.dropWhile isWs ≠ [] := by
  rw [plainLine, Bool.and_eq_true, Bool.not_eq_true', List.isEmpty_eq_false] at hp
  exact hp.1

theorem matchImport1_none_of_front {s : List Char} (h : importFront s = none) :
    matchImport1 s = none := by
  rw [matchImport1, h]
  rfl

theorem matchImport2_none_of_front {s : List Char} (h : importFront s = none) :
    matchImport2 s = none := by
  rw [matchImport2, h]
  rfl

theorem findSemi_cons_ne {c : Char} (hc : ¬ (c = ';')) (cs : List Char) :
    findSemi (c :: cs) = findSemi cs := by
  show (if c = ';' then
          match lineEndCutK cs with
          | some k => some (decide (k ≠ 0 ∧ (cs.take k).getLast? = some '\n'), cs.drop k)
          | none => findSemi cs
        else findSemi cs) = findSemi cs
  rw [if_neg hc]

theorem joinLines_map_cons (f : List Char → List Char) (l l₂ : List Char)
    (ls : List (List Char)) :
    joinLines ((l :: l₂ :: ls).map f) = f l ++ '\n' :: joinLines ((l₂ :: ls).map f) := rfl

theorem joinLines_head_tail (l : List Char) (ls : List (List Char)) :
    ∃ X, joinLines (l :: ls) = l ++ X ∧ (X = [] ∨ ∃ r, X = '\n' :: r) := by
  cases ls with
  | nil => exact ⟨[], (List.append_nil l).symm, Or.inl rfl⟩
  | cons l₂ ls' => exact ⟨'\n' :: joinLines (l₂ :: ls'), rfl, Or.inr ⟨_, rfl⟩⟩

theorem hasNonWs_joinLines {l : List Char} (ls : List (List Char))
    (hdw : l.dropWhile isWs ≠ []) (hnl : '\n' ∉ l) :
    hasNonWsBeforeNl (joinLines (l :: ls)) = true := by
  obtain ⟨X, hX, -⟩ := joinLines_head_tail l ls
  rw [hX]
  exact hasNonWsBeforeNl_of_ne_nil hdw hnl X

theorem joinLines_cons_length (l : List Char) (l₂ : List Char) (ls : List (List Char)) :
    (joinLines (l :: l₂ :: ls)).length =
      l.length + 1 + (joinLines (l₂ :: ls)).length := by
  rw [joinLines_cons_cons, List.length_append, List.length_cons]
  omega

theorem pass1_scenario1 : ∀ (ls : List (List Char)),
    (∀ l ∈ ls, '\n' ∉ l ∧ (plainLine l = true ∨ importLineSemi l = true)) →
    ∀ F : Nat, (joinLines ls).length < F →
    scanGo matchImport1 F true (joinLines ls) =
      joinLines (ls.map (fun l => if importLineSemi l then [] else l)) := by
  intro ls
  induction ls with
  | nil => intro _ F _; exact scanGo_nil _ F true
  | cons l ls ih =>
    intro h F hF
    obtain ⟨hnl, hcls⟩ := h l (List.mem_cons_self l ls)
    have hrest := fun l' hl' => h l' (List.mem_cons_of_mem l hl')
    cases ls with
    | nil =>
      show scanGo matchImport1 F true (joinLines [l]) =
        joinLines [if importLineSemi l then [] else l]
      cases hcls with
      | inl hp =>
        rw [importLineSemi_false_of_plain hp, if_neg Bool.false_ne_true]
        exact scanGo_true_nomatch_last _ l F (matchImports_plain [] hp).2.1 hnl
          (le_of_lt hF)
      | inr hs =>
        rw [hs, if_pos rfl]
        have hstart : importLineStart l = true := by
          rw [importLineSemi, Bool.and_eq_true] at hs
          exact hs.1
        have hlne := ne_nil_of_importLineStart hstart
        obtain ⟨F₀, rfl⟩ : ∃ F₀, F = F₀ + 1 := ⟨F - 1, by omega⟩
        have hm : matchImport1 l = some (false, []) := by
          have := matchImport1_semi hs hnl [] (Or.inl rfl)
          rwa [List.append_nil] at this
        exact scanGo_true_match_last _ l F₀ hm hlne
    | cons l₂ ls' =>
      rw [joinLines_cons_cons]
      have hlen := joinLines_cons_length l l₂ ls'
      obtain ⟨hnl₂, hcls₂⟩ := hrest l₂ (List.mem_cons_self l₂ ls')
      have hdw₂ : l₂.dropWhile isWs ≠ [] := by
        cases hcls₂ with
        | inl hp => exact plainLine_dropWhile_ne_nil hp
        | inr hs =>
          rw [importLineSemi, Bool.and_eq_true] at hs
          exact importLineStart_dropWhile_ne_nil hs.1
      cases hcls with
      | inl hp =>
        obtain ⟨F₀, rfl⟩ : ∃ F₀, F = F₀ + l.length + 1 :=
          ⟨F - l.length - 1, by omega⟩
        rw [scanGo_true_nomatch_line matchImport1 l _ F₀ (matchImports_plain _ hp).1 hnl]
        rw [ih hrest F₀ (by omega)]
        rw [joinLines_map_cons, importLineSemi_false_of_plain hp, if_neg Bool.false_ne_true]
      | inr hs =>
        have hstart : importLineStart l = true := by
          rw [importLineSemi, Bool.and_eq_true] at hs
          exact hs.1
        have hlne := ne_nil_of_importLineStart hstart
        have hllen : 1 ≤ l.length := by
          cases l with
          | nil => exact absurd rfl hlne
          | cons a b => simp [List.length_cons]
        have hcut : lineEndCutK (joinLines (l₂ :: ls')) = none :=
          lineEndCutK_none_of_hasNonWs (hasNonWs_joinLines ls' hdw₂ hnl₂)
        have hm : matchImport1 (l ++ '\n' :: joinLines (l₂ :: ls')) =
            some (false, '\n' :: joinLines (l₂ :: ls')) :=
          matchImport1_semi hs hnl _ (Or.inr ⟨_, rfl, hcut⟩)
        obtain ⟨F₀, rfl⟩ : ∃ F₀, F = F₀ + 2 := ⟨F - 2, by omega⟩
        rw [scanGo_true_match_line matchImport1 l _ F₀ hm hlne]
        rw [ih hrest F₀ (by omega)]
        rw [joinLines_map_cons, hs, if_pos rfl]
        rfl

theorem pass2_id_blankplain : ∀ (ls : List (List Char)),
    (∀ l ∈ ls, '\n' ∉ l ∧ (l.dropWhile isWs = [] ∨ plainLine l = true)) →
    ∀ F : Nat, (joinLines ls).length < F →
    scanGo matchImport2 F true (joinLines ls) = joinLines ls := by
  intro ls
  induction ls with
  | nil => intro _ F _; exact scanGo_nil _ F true
  | cons l ls ih =>
    intro h F hF
    obtain ⟨hnl, -⟩ := h l (List.mem_cons_self l ls)
    have hrest := fun l' hl' => h l' (List.mem_cons_of_mem l hl')
    have hm : matchImport2 (joinLines (l :: ls)) = none :=
      matchImport2_none_of_front (importFront_join_none (l :: ls) h)
    cases ls with
    | nil =>
      exact scanGo_true_nomatch_last _ l F hm hnl (le_of_lt hF)
    | cons l₂ ls' =>
      rw [joinLines_cons_cons] at hm ⊢
      have hlen := joinLines_cons_length l l₂ ls'
      obtain ⟨F₀, rfl⟩ : ∃ F₀, F = F₀ + l.length + 1 :=
        ⟨F - l.length - 1, by omega⟩
      rw [scanGo_true_nomatch_line matchImport2 l _ F₀ hm hnl]
      rw [ih hrest F₀ (by omega)]

theorem pass1_id_noSemi : ∀ (ls : List (List Char)),
    (∀ l ∈ ls, '\n' ∉ l ∧ endsSemi l = false ∧
      (plainLine l = true ∨ importLineNoSemi l = true)) →
    ∀ F : Nat, (joinLines ls).length < F →
    scanGo matchImport1 F true (joinLines ls) = joinLines ls := by
  intro ls
  induction ls with
  | nil => intro _ F _; exact scanGo_nil _ F true
  | cons l ls ih =>
    intro h F hF
    obtain ⟨hnl, hsemi, hcls⟩ := h l (List.mem_cons_self l ls)
    have hrest := fun l' hl' => h l' (List.mem_cons_of_mem l hl')
    cases ls with
    | nil =>
      have hm : matchImport1 l = none := by
        cases hcls with
        | inl hp => exact (matchImports_plain [] hp).2.1
        | inr hs =>
          rw [importLineNoSemi, Bool.and_eq_true, Bool.and_eq_true] at hs
          have := matchImport1_noSemi hs.1.1 hnl hsemi [] rfl
          rwa [List.append_nil] at this
      exact scanGo_true_nomatch_last _ l F hm hnl (le_of_lt hF)
    | cons l₂ ls' =>
      rw [joinLines_cons_cons]
      have hlen := joinLines_cons_length l l₂ ls'
      have hm : matchImport1 (l ++ '\n' :: joinLines (l₂ :: ls')) = none := by
        cases hcls with
        | inl hp => exact (matchImports_plain _ hp).1
        | inr hs =>
          rw [importLineNoSemi, Bool.and_eq_true, Bool.and_eq_true] at hs
          refine matchImport1_noSemi hs.1.1 hnl hsemi _ ?_
          rw [findSemi_cons_ne (by decide)]
          exact findSemi_join_none (l₂ :: ls')
            (fun l' hl' => ⟨(hrest l' hl').1, (hrest l' hl').2.1⟩)
      obtain ⟨F₀, rfl⟩ : ∃ F₀, F = F₀ + l.length + 1 :=
        ⟨F - l.length - 1, by omega⟩
      rw [scanGo_true_nomatch_line matchImport1 l _ F₀ hm hnl]
      rw [ih hrest F₀ (by omega)]

theorem pass2_scenario2 : ∀ (ls : List (List Char)),
    (∀ l ∈ ls, '\n' ∉ l ∧ (plainLine l = true ∨ importLineNoSemi l = true)) →
    ∀ F : Nat, (joinLines ls).length < F →
    scanGo matchImport2 F true (joinLines ls) =
      joinLines (ls.map (fun l => if importLineNoSemi l then [] else l)) := by
  intro ls
  induction ls with
  | nil => intro _ F _; exact scanGo_nil _ F true
  | cons l ls ih =>
    intro h F hF
    obtain ⟨hnl, hcls⟩ := h l (List.mem_cons_self l ls)
    have hrest := fun l' hl' => h l' (List.mem_cons_of_mem l hl')
    cases ls with
    | nil =>
      show scanGo matchImport2 F true (joinLines [l]) =
        joinLines [if importLineNoSemi l then [] else l]
      cases hcls with
      | inl hp =>
        rw [importLineNoSemi_false_of_plain hp, if_neg Bool.false_ne_true]
        exact scanGo_true_nomatch_last _ l F (matchImports_plain [] hp).2.2.2 hnl
          (le_of_lt hF)
      | inr hs =>
        rw [hs, if_pos rfl]
        have hstart : importLineStart l = true := by
          rw [importLineNoSemi, Bool.and_eq_true, Bool.and_eq_true] at hs
          exact hs.1.1
        have hlne := ne_nil_of_importLineStart hstart
        obtain ⟨F₀, rfl⟩ : ∃ F₀, F = F₀ + 1 := ⟨F - 1, by omega⟩
        have hm : matchImport2 l = some (false, []) := by
          have := matchImport2_import hs hnl [] (Or.inl rfl)
          rwa [List.append_nil] at this
        exact scanGo_true_match_last _ l F₀ hm hlne
    | cons l₂ ls' =>
      rw [joinLines_cons_cons]
      have hlen := joinLines_cons_length l l₂ ls'
      cases hcls with
      | inl hp =>
        obtain ⟨F₀, rfl⟩ : ∃ F₀, F = F₀ + l.length + 1 :=
          ⟨F - l.length - 1, by omega⟩
        rw [scanGo_true_nomatch_line matchImport2 l _ F₀ (matchImports_plain _ hp).2.2.1 hnl]
        rw [ih hrest F₀ (by omega)]
        rw [joinLines_map_cons, importLineNoSemi_false_of_plain hp, if_neg Bool.false_ne_true]
      | inr hs =>
        have hstart : importLineStart l = true := by
          rw [importLineNoSemi, Bool.and_eq_true, Bool.and_eq_true] at hs
          exact hs.1.1
        have hlne := ne_nil_of_importLineStart hstart
        have hllen : 1 ≤ l.length := by
          cases l with
          | nil => exact absurd rfl hlne
          | cons a b => simp [List.length_cons]
        have hm : matchImport2 (l ++ '\n' :: joinLines (l₂ :: ls')) =
            some (false, '\n' :: joinLines (l₂ :: ls')) :=
          matchImport2_import hs hnl _ (Or.inr ⟨_, rfl⟩)
        obtain ⟨F₀, rfl⟩ : ∃ F₀, F = F₀ + 2 := ⟨F - 2, by omega⟩
        rw [scanGo_true_match_line matchImport2 l _ F₀ hm hlne]
        rw [ih hrest F₀ (by omega)]
        rw [joinLines_map_cons, hs, if_pos rfl]
        rfl


/-- Claim C6 (amended): the import-removal step removes every line that
begins an import declaration and leaves every non-import line unchanged in
each of two regimes: (a) every import line carries its terminating
semicolon as its last non-whitespace character, and no line is blank or
whitespace-only; (b) no line of the text ends in a semicolon, in which case
imports without terminators are removed line-by-line by the tolerant second
pass. (As the counterexample shows, an import lacking its semicolon
otherwise makes the first pass consume text through the next
semicolon-terminated line end, deleting intervening non-import lines.) -/
theorem stripImports_line_behavior :
    (∀ ls : List (List Char),
       (∀ l ∈ ls, '\n' ∉ l ∧ (plainLine l = true ∨ importLineSemi l = true)) →
       stripImports (joinLines ls) =
         joinLines (ls.map (fun l => if importLineSemi l then [] else l))) ∧
    (∀ ls : List (List Char),
       (∀ l ∈ ls, '\n' ∉ l ∧ endsSemi l = false ∧
          (plainLine l = true ∨ importLineNoSemi l = true)) →
       stripImports (joinLines ls) =
         joinLines (ls.map (fun l => if importLineNoSemi l then [] else l))) := by
  constructor
  · intro ls h
    have h1 : pass1 (joinLines ls) =
        joinLines (ls.map (fun l => if importLineSemi l then [] else l)) :=
      pass1_scenario1 ls h _ (Nat.lt_succ_self _)
    show pass2 (pass1 (joinLines ls)) = _
    rw [h1]
    refine pass2_id_blankplain _ ?_ _ (Nat.lt_succ_self _)
    intro l' hl'
    rw [List.mem_map] at hl'
    obtain ⟨l, hlmem, rfl⟩ := hl'
    obtain ⟨hnl, hcls⟩ := h l hlmem
    by_cases hc : importLineSemi l = true
    · rw [hc, if_pos rfl]
      exact ⟨by simp, Or.inl rfl⟩
    · rw [if_neg hc]
      refine ⟨hnl, Or.inr ?_⟩
      cases hcls with
      | inl hp => exact hp
      | inr hs => exact absurd hs hc
  · intro ls h
    have h1 : pass1 (joinLines ls) = joinLines ls :=
      pass1_id_noSemi ls h _ (Nat.lt_succ_self _)
    show pass2 (pass1 (joinLines ls)) = _
    rw [h1]
    exact pass2_scenario2 ls (fun l hl => ⟨(h l hl).1, (h l hl).2.2⟩) _
      (Nat.lt_succ_self _)

def semiLines : List (List Char) := [toL "import A from X;", toL "const keep = 1;"]

def noSemiLines : List (List Char) := [toL "import B from Y", toL "const keep2 = 2"]

/-- Witness for C6 at concrete two-line inputs for both regimes. -/
theorem stripImports_line_behavior_witness :
    (∀ l ∈ semiLines, '\n' ∉ l ∧ (plainLine l = true ∨ importLineSemi l = true)) ∧
    stripImports (joinLines semiLines) = joinLines [[], toL "const keep = 1;"] ∧
    (∀ l ∈ noSemiLines, '\n' ∉ l ∧ endsSemi l = false ∧
      (plainLine l = true ∨ importLineNoSemi l = true)) ∧
    stripImports (joinLines noSemiLines) = joinLines [[], toL "const keep2 = 2"] := by
  refine ⟨by decide, ?_, by decide, ?_⟩
  · exact (stripImports_line_behavior.1 semiLines (by decide)).trans (by decide)
  · exact (stripImports_line_behavior.2 noSemiLines (by decide)).trans (by decide)

end PhysiGen
